import Mathlib

/-!
Verification of the product-quantization encoder and calibrated distance
evaluator (OpenBR `quantize.cpp`): shallow embedding of
`ProductQuantizationTransform` / `ProductQuantizationDistance` and proofs of
the specified properties.
-/

namespace PQ

/-- Outcome of an operation that can hit a `qFatal` (a reported diagnostic
carrying a message) or undefined behaviour such as an out-of-bounds container
access or a null-data dereference (`oob`). -/
inductive QErr where
  | fatal (msg : String)
  | oob
deriving DecidableEq

/-- Euclidean distance between two row vectors, as computed by
`cv::norm(a, b, NORM_L2)` in `ProductQuantizationTransform::getIndex`. -/
noncomputable def normL2 (a b : List ℝ) : ℝ :=
  Real.sqrt (((a.zip b).map (fun p => (p.1 - p.2) ^ 2)).sum)

/-- One step of the linear scan in `ProductQuantizationTransform::getIndex`:
the state is `(bestIndex, bestDistance)`, with `none` standing for the initial
`std::numeric_limits<double>::max()`; a candidate wins on a strictly smaller
distance. -/
noncomputable def scanStep (dd : ℕ → ℝ) (best : ℕ × Option ℝ) (j : ℕ) : ℕ × Option ℝ :=
  match best.2 with
  | none => (j, some (dd j))
  | some bd => if dd j < bd then (j, some (dd j)) else best

/-- Linear scan over the 256 codebook rows keeping the index of the first
strictly smallest value of `dd`. -/
noncomputable def scanIndex (dd : ℕ → ℝ) : ℕ :=
  ((List.range 256).foldl (scanStep dd) (0, none)).1

/-- The body of `ProductQuantizationTransform::getIndex`: nearest codebook row
to the sub-vector `m`, measured by `NORM_L2` (hardcoded in the source). -/
noncomputable def getIndex (m : List ℝ) (center : List (List ℝ)) : ℕ :=
  scanIndex (fun j => normL2 m (center.getD j []))

/-- Modelled from the spec: the encoder byte described by the spec is the index
of the nearest center under the configured base distance metric, found by
linear scan over the 256 centers. -/
noncomputable def specNearestIndex (dist : List ℝ → List ℝ → ℝ) (m : List ℝ)
    (center : List (List ℝ)) : ℕ :=
  scanIndex (fun j => dist m (center.getD j []))

/-- The body of `ProductQuantizationTransform::project` (the encode operation):
the input is reshaped to one row of `v.length` columns, the output has
`v.length / n` bytes, byte `i` being the nearest-center index for the slice
`[i*n, (i+1)*n)`.  Accessing `centers[i]` beyond the trained codebook list is
undefined behaviour, modelled as `QErr.oob`. -/
noncomputable def projectE (n : ℕ) (centers : List (List (List ℝ))) (v : List ℝ) :
    Except QErr (List ℕ) :=
  (List.range (v.length / n)).mapM (fun i =>
    match centers.get? i with
    | none => Except.error QErr.oob
    | some c => Except.ok (getIndex ((v.drop (i * n)).take n) c))

/-- The raw lookup-table build loop of `ProductQuantizationTransform::_train`:
a flat row of 256*256 floats where the entry written at offset `j*256+k` is
`distance->compare(center.row(j), center.row(k))`. -/
def buildLUT (dist : List ℝ → List ℝ → ℝ) (center : List (List ℝ)) : List ℝ :=
  (List.range 256).flatMap (fun j =>
    (List.range 256).map (fun k => dist (center.getD j []) (center.getD k [])))

/-- Modelled from the spec: Common::Downsample is not under src/; the spec says
each score population is downsampled to a fixed cap to bound the cost of
density estimation. -/
def Downsample (xs : List ℝ) (k : ℕ) : List ℝ :=
  if xs.length ≤ k then xs else xs.take k

/-- Modelled from the spec: Common::KernelDensityBandwidth is not under src/;
the spec asks for a standard bandwidth-selection rule, here Silverman's rule
of thumb. -/
noncomputable def KernelDensityBandwidth (xs : List ℝ) : ℝ :=
  let m : ℝ := xs.length
  let mean := xs.sum / m
  let sd := Real.sqrt ((xs.map (fun x => (x - mean) ^ 2)).sum / m)
  1.06 * sd * m ^ (-(1 : ℝ) / 5)

/-- Modelled from the spec: Common::KernelDensityEstimation is not under src/;
the spec asks for a kernel density estimate of a population at a point with a
given bandwidth, here with the Gaussian kernel. -/
noncomputable def KernelDensityEstimation (xs : List ℝ) (x h : ℝ) : ℝ :=
  ((xs.map (fun xi => Real.exp (-((x - xi) ^ 2) / (2 * h ^ 2)))).sum) /
    (xs.length * h * Real.sqrt (2 * Real.pi))

/-- All sample index pairs (i, j) with i < j, in the order of the double loop
in `ProductQuantizationTransform::_train`. -/
def allPairs (m : ℕ) : List (ℕ × ℕ) :=
  (List.range m).flatMap (fun i => ((List.range m).drop (i + 1)).map (fun j => (i, j)))

/-- The score-collection loop of `ProductQuantizationTransform::_train`: for
every sample pair (i, j), i < j, read `lut[indicies[i]*256 + indicies[j]]` and
put it into the genuine population when the class labels agree, otherwise into
the impostor population. -/
def collectScores (tbl : List ℝ) (idxs labels : List ℕ) : List ℝ × List ℝ :=
  let ps := allPairs idxs.length
  let score := fun p : ℕ × ℕ => tbl.getD (idxs.getD p.1 0 * 256 + idxs.getD p.2 0) 0
  ((ps.filter (fun p => labels.getD p.1 0 == labels.getD p.2 0)).map score,
   (ps.filter (fun p => !(labels.getD p.1 0 == labels.getD p.2 0))).map score)

/-- The bayesian branch of `ProductQuantizationTransform::_train`: collect the
genuine and impostor score populations, downsample each to 256, estimate one
bandwidth per population, then replace every table entry x with
log(densityGenuine(x, hGenuine) / densityImpostor(x, hImpostor)). -/
noncomputable def calibrate (tbl : List ℝ) (idxs labels : List ℕ) : List ℝ :=
  let pops := collectScores tbl idxs labels
  let gen := Downsample pops.1 256
  let imp := Downsample pops.2 256
  let hGenuine := KernelDensityBandwidth gen
  let hImpostor := KernelDensityBandwidth imp
  tbl.map (fun x =>
    Real.log (KernelDensityEstimation gen x hGenuine / KernelDensityEstimation imp x hImpostor))

/-- One subspace of `ProductQuantizationTransform::_train`: build the raw
256*256 distance table from the codebook, then, when bayesian, calibrate it in
place.  The k-means call itself is external (OpenCV); its outputs are the
codebook `center` and the per-sample cluster assignment `idxs`. -/
noncomputable def subTrain (bayesian : Bool) (dist : List ℝ → List ℝ → ℝ)
    (center : List (List ℝ)) (idxs labels : List ℕ) : List ℝ :=
  let tbl := buildLUT dist center
  if bayesian then calibrate tbl idxs labels else tbl

/-- Diagnostic text of the qFatal in `ProductQuantizationTransform::train`. -/
def divisibilityMsg : String :=
  "Expected dimensionality to be divisible by n."

/-- The body of `ProductQuantizationTransform::train`: `qFatal` when the data
dimensionality is not divisible by n, otherwise one codebook and one table row
per subspace.  `km i` and `kmIdx i` stand for the (external, OpenCV) k-means
result on the columns `[i*n, (i+1)*n)` of the training matrix: the 256-row
codebook and the per-sample cluster assignment. -/
noncomputable def trainE (n : ℕ) (bayesian : Bool) (km : ℕ → List (List ℝ))
    (kmIdx : ℕ → List ℕ) (dist : List ℝ → List ℝ → ℝ) (labels : List ℕ) (D : ℕ) :
    Except QErr (List (List (List ℝ)) × List (List ℝ)) :=
  if D % n ≠ 0 then Except.error (QErr.fatal divisibilityMsg)
  else Except.ok ((List.range (D / n)).map km,
    (List.range (D / n)).map (fun i => subTrain bayesian dist (km i) (kmIdx i) labels))

/-- The inner loop of `ProductQuantizationDistance::compare` for one pair of
code matrices: element j contributes `lut[j*256*256 + aData[j]*256 + bData[j]]`.
Reading `bData[j]` past the end of b, or reading the table out of range (in
particular through the null data pointer of an empty table), is undefined
behaviour, modelled as `QErr.oob`. -/
def subSum (lut : List ℝ) : ℕ → List ℕ → List ℕ → Except QErr ℝ
  | _, [], _ => Except.ok 0
  | _, _ :: _, [] => Except.error QErr.oob
  | j, a :: as, b :: bs =>
    match lut.get? (j * 65536 + a * 256 + b) with
    | none => Except.error QErr.oob
    | some x => (subSum lut (j + 1) as bs).map (fun s => x + s)

/-- The outer loop of `ProductQuantizationDistance::compare`: matrix i of the
two templates is scored against `ProductQuantizationLUTs[i]`; a missing
registry slot (out-of-range access) or a missing `b[i]` is undefined
behaviour.  An empty table with an empty code contributes nothing (the null
data pointer is never dereferenced). -/
def tmplSum (reg : List (List ℝ)) : ℕ → List (List ℕ) → List (List ℕ) → Except QErr ℝ
  | _, [], _ => Except.ok 0
  | _, _ :: _, [] => Except.error QErr.oob
  | i, as :: ar, bs :: br =>
    match reg.get? i with
    | none => Except.error QErr.oob
    | some lut => do
        let s ← subSum lut 0 as bs
        let t ← tmplSum reg (i + 1) ar br
        pure (s + t)

/-- The body of `ProductQuantizationDistance::compare`: accumulate the table
lookups over all matrices and elements; when not bayesian, return
`-log(distance + 1)` instead of the raw sum. -/
noncomputable def compareE (bayesian : Bool) (reg : List (List ℝ))
    (a b : List (List ℕ)) : Except QErr ℝ :=
  (tmplSum reg 0 a b).map (fun d => if bayesian then d else -Real.log (d + 1))

/-- Entry (ja, jb) of the table row for subspace j inside a flat per-quantizer
table. -/
def lutEntry (lut : List ℝ) (j ja jb : ℕ) : ℝ :=
  lut.getD (j * 65536 + ja * 256 + jb) 0

/-- Sum of the per-subspace table entries selected by two byte codes, subspace
indices starting at j. -/
def codeSumFrom (lut : List ℝ) (j : ℕ) (as bs : List ℕ) : ℝ :=
  ((List.enumFrom j (as.zip bs)).map (fun q => lutEntry lut q.1 q.2.1 q.2.2)).sum

/-- Sum over all template matrices (from index i) of the per-code sums against
the registry slot of the same index. -/
def specSumFrom (reg : List (List ℝ)) (i : ℕ) (a b : List (List ℕ)) : ℝ :=
  ((List.enumFrom i (a.zip b)).map (fun q => codeSumFrom (reg.getD q.1 []) 0 q.2.1 q.2.2)).sum

/-- The accumulated lookup sum of the spec's compare contract: for each
subspace index, the entry of that subspace's table at the two code bytes. -/
def specSum (reg : List (List ℝ)) (a b : List (List ℕ)) : ℝ :=
  specSumFrom reg 0 a b

/-- One token of the serialized stream (`QDataStream`): a size field or a
floating-point payload value. -/
inductive Tok where
  | nat (n : ℕ)
  | real (r : ℝ)

/-- Serialization of a counted collection: the element count followed by each
element's encoding, in order (the layout `QDataStream` uses for QList / Mat
payloads). -/
def encCtd {α : Type} (enc : α → List Tok) (xs : List α) : List Tok :=
  Tok.nat xs.length :: (xs.map enc).flatten

/-- Reads exactly k elements with the given element decoder, returning them
with the remaining stream. -/
def decCtdAux {α : Type} (dec : List Tok → Option (α × List Tok)) :
    ℕ → List Tok → Option (List α × List Tok)
  | 0, ts => some ([], ts)
  | k + 1, ts => do
    let p ← dec ts
    let q ← decCtdAux dec k p.2
    some (p.1 :: q.1, q.2)

/-- Reads a counted collection: the count token, then that many elements. -/
def decCtd {α : Type} (dec : List Tok → Option (α × List Tok)) :
    List Tok → Option (List α × List Tok)
  | Tok.nat k :: ts => decCtdAux dec k ts
  | _ => none

/-- Reads one floating-point token. -/
def decReal1 : List Tok → Option (ℝ × List Tok)
  | Tok.real r :: ts => some (r, ts)
  | _ => none

/-- Serialization of one row of floats (the data of one Mat row). -/
def encReals (xs : List ℝ) : List Tok :=
  encCtd (fun r => [Tok.real r]) xs

/-- Deserialization of one row of floats. -/
def decReals : List Tok → Option (List ℝ × List Tok) :=
  decCtd decReal1

/-- Serialization of one Mat given as its list of rows. -/
def encMat (m : List (List ℝ)) : List Tok :=
  encCtd encReals m

/-- Deserialization of one Mat. -/
def decMat : List Tok → Option (List (List ℝ) × List Tok) :=
  decCtd decReals

/-- The state a `ProductQuantizationTransform` instance owns: its configured
subspace width and calibration flag, the registry slot index claimed at
construction, and the per-subspace codebooks retained for encoding. -/
structure PQT where
  n : ℕ
  bayesian : Bool
  index : ℕ
  centers : List (List (List ℝ))

/-- The `ProductQuantizationTransform` constructor: record the current size of
the process-wide `ProductQuantizationLUTs` registry as this instance's index
and append one fresh empty slot (`Mat()`, modelled as the empty table). -/
def mkPQT (n : ℕ) (bayesian : Bool) (reg : List (List ℝ)) : PQT × List (List ℝ) :=
  ({ n := n, bayesian := bayesian, index := reg.length, centers := [] }, reg ++ [[]])

/-- `ProductQuantizationTransform::train` including its effect on the
registry: on success the instance keeps the trained codebooks and the flat
per-subspace tables are written into the registry slot at this instance's
index. -/
noncomputable def trainFull (q : PQT) (km : ℕ → List (List ℝ)) (kmIdx : ℕ → List ℕ)
    (dist : List ℝ → List ℝ → ℝ) (labels : List ℕ) (D : ℕ) (reg : List (List ℝ)) :
    Except QErr (PQT × List (List ℝ)) :=
  match trainE q.n q.bayesian km kmIdx dist labels D with
  | Except.error e => Except.error e
  | Except.ok p => Except.ok ({ q with centers := p.1 }, reg.set q.index p.2.flatten)

/-- `ProductQuantizationTransform::store`: stream out the codebooks, then the
content of this instance's registry slot. -/
def storePQT (q : PQT) (reg : List (List ℝ)) : List Tok :=
  encCtd encMat q.centers ++ encReals (reg.getD q.index [])

/-- `ProductQuantizationTransform::load`: stream in the codebooks, then this
instance's registry slot (leaving the rest of the stream for later readers). -/
def loadPQT (q : PQT) (reg : List (List ℝ)) (ts : List Tok) :
    Option (PQT × List (List ℝ)) := do
  let p ← decCtd decMat ts
  let l ← decReals p.2
  some ({ q with centers := p.1 }, reg.set q.index l.1)

/-! Helper lemmas. -/

/-- Reading a flattened list of equal-length blocks at offset `j*M + k` reads
entry k of block j. -/
theorem flatten_get_uniform {α : Type} (M : ℕ) :
    ∀ (L : List (List α)) (j k : ℕ), (∀ l ∈ L, l.length = M) → j < L.length → k < M →
      L.flatten.get? (j * M + k) = (L.get? j).bind (fun l => l.get? k) := by
  intro L
  induction L with
  | nil => intro j k _ hj _; simp at hj
  | cons hd tl ih =>
    intro j k hlen hj hk
    have hhd : hd.length = M := hlen hd (List.mem_cons_self _ _)
    cases j with
    | zero =>
      rw [List.flatten_cons, Nat.zero_mul, Nat.zero_add, List.get?_append (by omega)]
      simp
    | succ j' =>
      rw [List.flatten_cons, List.get?_append_right
        (by rw [hhd]
            exact le_trans (Nat.le_mul_of_pos_left M (Nat.succ_pos j')) (Nat.le_add_right _ _))]
      have harith : (j' + 1) * M + k - hd.length = j' * M + k := by
        rw [hhd, Nat.succ_mul]; omega
      rw [harith]
      have := ih j' k (fun l hl => hlen l (List.mem_cons_of_mem _ hl)) (by simpa using hj) hk
      simpa using this

/-- The raw table row has 256*256 entries. -/
theorem buildLUT_length (dist : List ℝ → List ℝ → ℝ) (center : List (List ℝ)) :
    (buildLUT dist center).length = 65536 := by
  rw [buildLUT, List.length_flatMap]
  have h2 : ∀ x ∈ List.map (fun j =>
      (List.map (fun k => dist (center.getD j []) (center.getD k [])) (List.range 256)).length)
      (List.range 256), x = 256 := by
    intro x hx
    simp only [List.mem_map] at hx
    obtain ⟨a, -, rfl⟩ := hx
    simp
  rw [show (List.map (List.length ∘ fun j =>
      List.map (fun k => dist (center.getD j []) (center.getD k [])) (List.range 256))
      (List.range 256)) = List.map (fun j =>
      (List.map (fun k => dist (center.getD j []) (center.getD k [])) (List.range 256)).length)
      (List.range 256) from rfl]
  rw [List.eq_replicate_of_mem h2, List.length_map, List.length_range, List.sum_replicate,
    smul_eq_mul]

/-- Entry `j*256 + k` of the raw table is the base distance between codebook
rows j and k. -/
theorem buildLUT_get (dist : List ℝ → List ℝ → ℝ) (center : List (List ℝ))
    {j k : ℕ} (hj : j < 256) (hk : k < 256) :
    (buildLUT dist center).get? (j * 256 + k) =
      some (dist (center.getD j []) (center.getD k [])) := by
  have h := flatten_get_uniform 256
    ((List.range 256).map (fun j => (List.range 256).map
      (fun k => dist (center.getD j []) (center.getD k [])))) j k
    (by intro l hl; simp at hl; obtain ⟨a, _, rfl⟩ := hl; simp)
    (by simpa using hj) hk
  rw [buildLUT, List.flatMap_def, h]
  simp [List.getElem?_map, List.getElem?_range, hj, hk]

/-- Downsampling never returns more than the cap. -/
theorem Downsample_length_le (xs : List ℝ) (k : ℕ) : (Downsample xs k).length ≤ k := by
  rw [Downsample]
  split
  · assumption
  · simp

/-- Decoding a counted collection after encoding it recovers the elements and
the remaining stream, provided the element codec round-trips. -/
theorem decCtdAux_enc {α : Type} (dec : List Tok → Option (α × List Tok)) (enc : α → List Tok)
    (h : ∀ (x : α) (rest : List Tok), dec (enc x ++ rest) = some (x, rest)) :
    ∀ (xs : List α) (rest : List Tok),
      decCtdAux dec xs.length ((xs.map enc).flatten ++ rest) = some (xs, rest) := by
  intro xs
  induction xs with
  | nil => intro rest; simp [decCtdAux]
  | cons hd tl ih =>
    intro rest
    simp only [List.map_cons, List.flatten_cons, List.length_cons, List.append_assoc]
    simp [decCtdAux, h hd ((tl.map enc).flatten ++ rest), ih rest]

/-- Round trip for one counted collection. -/
theorem decCtd_enc {α : Type} (dec : List Tok → Option (α × List Tok)) (enc : α → List Tok)
    (h : ∀ (x : α) (rest : List Tok), dec (enc x ++ rest) = some (x, rest))
    (xs : List α) (rest : List Tok) :
    decCtd dec (encCtd enc xs ++ rest) = some (xs, rest) := by
  rw [encCtd, List.cons_append, decCtd]
  exact decCtdAux_enc dec enc h xs rest

/-- Round trip for one row of floats. -/
theorem decReals_enc (xs : List ℝ) (rest : List Tok) :
    decReals (encReals xs ++ rest) = some (xs, rest) :=
  decCtd_enc decReal1 (fun r => [Tok.real r]) (fun _ _ => rfl) xs rest

/-- Round trip for one Mat. -/
theorem decMat_enc (m : List (List ℝ)) (rest : List Tok) :
    decMat (encMat m ++ rest) = some (m, rest) :=
  decCtd_enc decReals encReals decReals_enc m rest

/-- Loading a stored quantizer restores the codebooks and writes the stored
table into the loading instance's registry slot. -/
theorem load_store_eq (q q2 : PQT) (reg reg2 : List (List ℝ)) :
    loadPQT q2 reg2 (storePQT q reg) =
      some ({ q2 with centers := q.centers }, reg2.set q2.index (reg.getD q.index [])) := by
  rw [storePQT, loadPQT]
  rw [decCtd_enc decMat encMat decMat_enc q.centers (encReals (reg.getD q.index []))]
  have h2 := decReals_enc (reg.getD q.index []) []
  rw [List.append_nil] at h2
  simp only [List.getD_eq_getElem?_getD] at h2
  simp [h2]

/-! Claim theorems. -/

/-- C7: for every training matrix whose dimensionality D is not evenly
divisible by the configured subspace width n, training fails fatally at
training start, before any clustering work begins (the result is the fatal
diagnostic whatever the clustering oracle returns). -/
theorem train_nondivisible_fatal (n : ℕ) (bayesian : Bool) (km : ℕ → List (List ℝ))
    (kmIdx : ℕ → List ℕ) (dist : List ℝ → List ℝ → ℝ) (labels : List ℕ) (D : ℕ)
    (h : D % n ≠ 0) :
    trainE n bayesian km kmIdx dist labels D =
      Except.error (QErr.fatal divisibilityMsg) := by
  rw [trainE, if_pos h]

/-- Witness for C7 at D = 5, n = 2. -/
theorem train_nondivisible_fatal_witness :
    5 % 2 ≠ 0 ∧
    trainE 2 false (fun _ => []) (fun _ => []) (fun _ _ => 0) [] 5 =
      Except.error (QErr.fatal divisibilityMsg) :=
  ⟨by decide, train_nondivisible_fatal 2 false (fun _ => []) (fun _ => []) (fun _ _ => 0) [] 5
    (by decide)⟩

/-- C1: after training with calibration off, for every subspace i and all
j, k < 256, the raw lookup-table entry of subspace i at offset j*256+k is the
configured base distance metric applied to centers j and k of that subspace's
codebook. -/
theorem trained_lut_entry (n : ℕ) (km : ℕ → List (List ℝ)) (kmIdx : ℕ → List ℕ)
    (dist : List ℝ → List ℝ → ℝ) (labels : List ℕ) (D i j k : ℕ)
    (hi : i < D / n) (hj : j < 256) (hk : k < 256)
    (st : List (List (List ℝ)) × List (List ℝ))
    (hst : trainE n false km kmIdx dist labels D = Except.ok st) :
    ∃ tbl, st.2.get? i = some tbl ∧
      tbl.get? (j * 256 + k) = some (dist ((km i).getD j []) ((km i).getD k [])) := by
  rw [trainE] at hst
  split at hst
  · exact absurd hst (by simp)
  · have hpair := Except.ok.inj hst
    subst hpair
    refine ⟨buildLUT dist (km i), ?_, buildLUT_get dist (km i) hj hk⟩
    simp only [List.get?_eq_getElem?, List.getElem?_map, List.getElem?_range, hi]
    simp [subTrain]

/-- Witness for C1 at a one-subspace training run. -/
theorem trained_lut_entry_witness :
    0 < 2 / 2 ∧ 0 < 256 ∧
    ∃ tbl, (((List.range (2 / 2)).map (fun _ => ([] : List (List ℝ))),
        (List.range (2 / 2)).map (fun _ =>
          subTrain false (fun _ _ => (0 : ℝ)) [] [] [])) :
          List (List (List ℝ)) × List (List ℝ)).2.get? 0 = some tbl ∧
      tbl.get? (0 * 256 + 0) =
        some ((fun _ _ => (0 : ℝ)) (([] : List (List ℝ)).getD 0 [])
          (([] : List (List ℝ)).getD 0 [])) :=
  ⟨by decide, by decide,
    trained_lut_entry 2 (fun _ => []) (fun _ => []) (fun _ _ => 0) [] 2 0 0 0
      (by decide) (by decide) (by decide) _ rfl⟩

/-- C5: with calibration enabled, each score population is downsampled to at
most 256 entries, one bandwidth is estimated per population, and every one of
the 256*256 table entries is replaced by the log of the ratio of the genuine
and impostor density estimates at the raw entry value. -/
theorem calibrated_entries (dist : List ℝ → List ℝ → ℝ) (center : List (List ℝ))
    (idxs labels : List ℕ) (j k : ℕ) (hj : j < 256) (hk : k < 256) :
    (Downsample (collectScores (buildLUT dist center) idxs labels).1 256).length ≤ 256 ∧
    (Downsample (collectScores (buildLUT dist center) idxs labels).2 256).length ≤ 256 ∧
    ∃ x, (buildLUT dist center).get? (j * 256 + k) = some x ∧
      (subTrain true dist center idxs labels).get? (j * 256 + k) =
        some (Real.log
          (KernelDensityEstimation
              (Downsample (collectScores (buildLUT dist center) idxs labels).1 256) x
              (KernelDensityBandwidth
                (Downsample (collectScores (buildLUT dist center) idxs labels).1 256)) /
            KernelDensityEstimation
              (Downsample (collectScores (buildLUT dist center) idxs labels).2 256) x
              (KernelDensityBandwidth
                (Downsample (collectScores (buildLUT dist center) idxs labels).2 256)))) := by
  refine ⟨Downsample_length_le _ _, Downsample_length_le _ _, ?_⟩
  refine ⟨dist (center.getD j []) (center.getD k []), buildLUT_get dist center hj hk, ?_⟩
  have hsub : subTrain true dist center idxs labels =
      calibrate (buildLUT dist center) idxs labels := by
    simp [subTrain]
  rw [hsub]
  simp only [calibrate]
  rw [List.get?_eq_getElem?, List.getElem?_map]
  have hb := buildLUT_get dist center hj hk
  rw [List.get?_eq_getElem?] at hb
  rw [hb]
  rfl

/-- Witness for C5 at entry (0, 0). -/
theorem calibrated_entries_witness :
    0 < 256 ∧
    ∃ x, (buildLUT (fun _ _ => (0 : ℝ)) []).get? (0 * 256 + 0) = some x ∧
      (subTrain true (fun _ _ => (0 : ℝ)) [] [] []).get? (0 * 256 + 0) =
        some (Real.log
          (KernelDensityEstimation
              (Downsample (collectScores (buildLUT (fun _ _ => (0 : ℝ)) []) [] []).1 256) x
              (KernelDensityBandwidth
                (Downsample (collectScores (buildLUT (fun _ _ => (0 : ℝ)) []) [] []).1 256)) /
            KernelDensityEstimation
              (Downsample (collectScores (buildLUT (fun _ _ => (0 : ℝ)) []) [] []).2 256) x
              (KernelDensityBandwidth
                (Downsample (collectScores (buildLUT (fun _ _ => (0 : ℝ)) []) [] []).2 256)))) :=
  ⟨by decide, (calibrated_entries (fun _ _ => 0) [] [] [] 0 0 (by decide) (by decide)).2.2⟩

/-- C8: deserializing the serialization of a trained quantizer restores the
per-subspace centers and the registry slot, so the restored quantizer produces
byte-identical codes for every vector and identical compare scores for every
code pair. -/
theorem serialize_roundtrip (q : PQT) (reg : List (List ℝ)) (hq : q.index < reg.length) :
    ∃ p, loadPQT q reg (storePQT q reg) = some p ∧ p.1 = q ∧
      p.2.getD q.index [] = reg.getD q.index [] ∧
      (∀ n v, projectE n p.1.centers v = projectE n q.centers v) ∧
      (∀ bay a b, compareE bay [p.2.getD q.index []] a b =
        compareE bay [reg.getD q.index []] a b) := by
  refine ⟨({ q with centers := q.centers }, reg.set q.index (reg.getD q.index [])),
    load_store_eq q q reg reg, rfl, ?_, fun n v => rfl, ?_⟩
  · simp only [List.getD_eq_getElem?_getD, List.getElem?_set_eq_of_lt _ hq, Option.getD_some]
  · intro bay a b
    simp only [List.getD_eq_getElem?_getD, List.getElem?_set_eq_of_lt _ hq, Option.getD_some]

/-- Witness for C8 on a one-slot registry. -/
theorem serialize_roundtrip_witness :
    (PQT.mk 2 false 0 [[[1, 2]]]).index < ([[3]] : List (List ℝ)).length ∧
    ∃ p, loadPQT (PQT.mk 2 false 0 [[[1, 2]]]) [[3]]
        (storePQT (PQT.mk 2 false 0 [[[1, 2]]]) [[3]]) = some p ∧
      p.1 = PQT.mk 2 false 0 [[[1, 2]]] ∧
      p.2.getD 0 [] = ([[3]] : List (List ℝ)).getD 0 [] ∧
      (∀ n v, projectE n p.1.centers v =
        projectE n (PQT.mk 2 false 0 [[[1, 2]]]).centers v) ∧
      (∀ bay a b, compareE bay [p.2.getD 0 []] a b =
        compareE bay [([[3]] : List (List ℝ)).getD 0 []] a b) :=
  ⟨by decide, serialize_roundtrip (PQT.mk 2 false 0 [[[1, 2]]]) [[3]] (by decide)⟩

/-- C10: every construction appends exactly one fresh empty slot to the
process-wide registry and takes the prior registry size as its identity;
sequential constructions get distinct identities; and train, load and store
write or read only the slot at the instance's own identity. -/
theorem registry_discipline (n1 n2 : ℕ) (b1 b2 : Bool) (reg : List (List ℝ)) :
    (mkPQT n1 b1 reg).2 = reg ++ [[]] ∧
    (mkPQT n1 b1 reg).1.index = reg.length ∧
    (mkPQT n2 b2 (mkPQT n1 b1 reg).2).1.index ≠ (mkPQT n1 b1 reg).1.index ∧
    (∀ q km kmIdx dist labels D p, trainFull q km kmIdx dist labels D reg = Except.ok p →
      ∀ j, j ≠ q.index → p.2.get? j = reg.get? j) ∧
    (∀ q ts p, loadPQT q reg ts = some p → ∀ j, j ≠ q.index → p.2.get? j = reg.get? j) ∧
    (∀ q (reg2 : List (List ℝ)), reg.getD q.index [] = reg2.getD q.index [] →
      storePQT q reg = storePQT q reg2) := by
  refine ⟨rfl, rfl, by simp [mkPQT], ?_, ?_, ?_⟩
  · intro q km kmIdx dist labels D p hp j hj
    rw [trainFull] at hp
    split at hp
    · exact absurd hp (by simp)
    · have := Except.ok.inj hp
      rw [← this]
      simp only [List.get?_eq_getElem?]
      exact List.getElem?_set_ne hj.symm
  · intro q ts p hp j hj
    rw [loadPQT] at hp
    cases hdec : decCtd decMat ts with
    | none => rw [hdec] at hp; exact absurd hp (by simp)
    | some pr =>
      rw [hdec] at hp
      simp only [Option.bind_eq_bind', Option.some_bind] at hp
      cases hdec2 : decReals pr.2 with
      | none => rw [hdec2] at hp; exact absurd hp (by simp)
      | some l =>
        rw [hdec2] at hp
        simp only [Option.some_bind'] at hp
        have := Option.some.inj hp
        rw [← this]
        simp only [List.get?_eq_getElem?]
        exact List.getElem?_set_ne hj.symm
  · intro q reg2 hslot
    rw [storePQT, storePQT, hslot]

/-- Witness for C10: a successful train writes only the instance's own slot. -/
theorem registry_discipline_witness :
    trainFull (PQT.mk 2 false 1 []) (fun _ => []) (fun _ => []) (fun _ _ => 0) [] 2
        [[(1 : ℝ)], []] =
      Except.ok (PQT.mk 2 false 1 ((List.range (2 / 2)).map (fun _ => ([] : List (List ℝ)))),
        ([[(1 : ℝ)], []] : List (List ℝ)).set 1
          (((List.range (2 / 2)).map
            (fun _ => subTrain false (fun _ _ => (0 : ℝ)) [] [] [])).flatten)) ∧
    (([[(1 : ℝ)], []] : List (List ℝ)).set 1
        (((List.range (2 / 2)).map
          (fun _ => subTrain false (fun _ _ => (0 : ℝ)) [] [] [])).flatten)).get? 0 =
      ([[(1 : ℝ)], []] : List (List ℝ)).get? 0 :=
  ⟨rfl, (registry_discipline 2 2 false false [[(1 : ℝ)], []]).2.2.2.1
    (PQT.mk 2 false 1 []) (fun _ => []) (fun _ => []) (fun _ _ => 0) [] 2 _ rfl 0
    (by decide)⟩

/-- The in-bounds inner compare loop computes the per-subspace table sum. -/
theorem subSum_ok (lut : List ℝ) :
    ∀ (as bs : List ℕ) (j : ℕ), as.length = bs.length →
      (j + as.length) * 65536 ≤ lut.length →
      (∀ x ∈ as, x < 256) → (∀ x ∈ bs, x < 256) →
      subSum lut j as bs = Except.ok (codeSumFrom lut j as bs) := by
  intro as
  induction as with
  | nil =>
    intro bs j hlen _ _ _
    have hb : bs = [] := List.eq_nil_of_length_eq_zero hlen.symm
    subst hb
    simp [subSum, codeSumFrom]
  | cons a as ih =>
    intro bs j hlen hbound ha hb
    cases bs with
    | nil => simp at hlen
    | cons b bs =>
      have ha2 : a < 256 := ha a (List.mem_cons_self _ _)
      have hb2 : b < 256 := hb b (List.mem_cons_self _ _)
      have hidx : j * 65536 + a * 256 + b < lut.length := by
        have h2 : (j + (as.length + 1)) * 65536 ≤ lut.length := by simpa using hbound
        have h3 : (j + 1) * 65536 ≤ (j + (as.length + 1)) * 65536 :=
          Nat.mul_le_mul_right _ (by omega)
        have h4 : (j + 1) * 65536 = j * 65536 + 65536 := by rw [Nat.succ_mul]
        omega
      have hsome : lut.get? (j * 65536 + a * 256 + b) =
          some (lut.getD (j * 65536 + a * 256 + b) 0) := by
        simp [List.getD_eq_getElem?_getD, List.get?_eq_getElem?, List.getElem?_eq_getElem hidx]
      have hrec := ih bs (j + 1) (by simpa using hlen)
        (by rw [show j + 1 + as.length = j + (as.length + 1) by omega]; simpa using hbound)
        (fun x hx => ha x (List.mem_cons_of_mem _ hx))
        (fun x hx => hb x (List.mem_cons_of_mem _ hx))
      simp only [subSum, hsome, hrec, Except.map_ok]
      rw [show codeSumFrom lut j (a :: as) (b :: bs) =
        lutEntry lut j a b + codeSumFrom lut (j + 1) as bs by
          simp [codeSumFrom, List.enumFrom, List.zip]]
      rfl

/-- The in-bounds outer compare loop computes the whole accumulated sum. -/
theorem tmplSum_ok (reg : List (List ℝ)) :
    ∀ (a b : List (List ℕ)) (i : ℕ), a.length = b.length →
      (∀ k as bs, a.get? k = some as → b.get? k = some bs →
        ∃ lut, reg.get? (i + k) = some lut ∧ as.length = bs.length ∧
          as.length * 65536 ≤ lut.length ∧ (∀ x ∈ as, x < 256) ∧ (∀ x ∈ bs, x < 256)) →
      tmplSum reg i a b = Except.ok (specSumFrom reg i a b) := by
  intro a
  induction a with
  | nil =>
    intro b i hlen _
    have hb : b = [] := List.eq_nil_of_length_eq_zero hlen.symm
    subst hb
    simp [tmplSum, specSumFrom]
  | cons as ar ih =>
    intro b i hlen h
    cases b with
    | nil => simp at hlen
    | cons bs br =>
      obtain ⟨lut, hreg, hl, hbnd, has, hbs⟩ := h 0 as bs rfl rfl
      rw [Nat.add_zero] at hreg
      have hsub := subSum_ok lut as bs 0 hl (by simpa using hbnd) has hbs
      have hrec := ih br (i + 1) (by simpa using hlen) (by
        intro k as2 bs2 hak hbk
        obtain ⟨lut2, hreg2, rest⟩ := h (k + 1) as2 bs2 (by simpa using hak) (by simpa using hbk)
        exact ⟨lut2, by rw [show i + 1 + k = i + (k + 1) by omega]; exact hreg2, rest⟩)
      simp only [tmplSum, hreg, hsub, hrec]
      have hgd : (reg.getD i []) = lut := by
        rw [List.getD_eq_getElem?_getD, ← List.get?_eq_getElem?, hreg, Option.getD_some]
      rw [show specSumFrom reg i (as :: ar) (bs :: br) =
        codeSumFrom (reg.getD i []) 0 as bs + specSumFrom reg (i + 1) ar br by
          simp [specSumFrom, List.enumFrom, List.zip]]
      rw [hgd]
      rfl

/-- C2: for every pair of quantized codes against a populated registry, the
non-calibrated compare returns -log(sum + 1) where sum accumulates
table_i[codeA[i]][codeB[i]] over the subspaces, and the calibrated (bayesian)
compare returns the accumulated sum untransformed. -/
theorem compare_score (bayesian : Bool) (reg : List (List ℝ)) (a b : List (List ℕ))
    (hab : a.length = b.length)
    (h : ∀ k as bs, a.get? k = some as → b.get? k = some bs →
      ∃ lut, reg.get? k = some lut ∧ as.length = bs.length ∧
        as.length * 65536 ≤ lut.length ∧ (∀ x ∈ as, x < 256) ∧ (∀ x ∈ bs, x < 256)) :
    compareE bayesian reg a b =
      Except.ok (if bayesian then specSum reg a b
        else -Real.log (specSum reg a b + 1)) := by
  rw [compareE, specSum, tmplSum_ok reg a b 0 hab (by simpa using h)]
  rfl

/-- Witness for C2 on a one-subspace registry and single-byte codes. -/
theorem compare_score_witness :
    ([[(0 : ℕ)]] : List (List ℕ)).length = ([[0]] : List (List ℕ)).length ∧
    compareE true [List.replicate 65536 (0 : ℝ)] [[0]] [[0]] =
      Except.ok (specSum [List.replicate 65536 (0 : ℝ)] [[0]] [[0]]) := by
  have h : ∀ k (as bs : List ℕ), ([[(0 : ℕ)]] : List (List ℕ)).get? k = some as →
      ([[(0 : ℕ)]] : List (List ℕ)).get? k = some bs →
      ∃ lut, [List.replicate 65536 (0 : ℝ)].get? k = some lut ∧ as.length = bs.length ∧
        as.length * 65536 ≤ lut.length ∧ (∀ x ∈ as, x < 256) ∧ (∀ x ∈ bs, x < 256) := by
    intro k as bs hak hbk
    cases k with
    | zero =>
      have h1 : as = [0] := by simpa using hak.symm
      have h2 : bs = [0] := by simpa using hbk.symm
      subst h1; subst h2
      refine ⟨List.replicate 65536 0, rfl, rfl, ?_, ?_, ?_⟩
      · rw [List.length_replicate]
        norm_num
      · intro x hx
        simp only [List.mem_singleton] at hx
        omega
      · intro x hx
        simp only [List.mem_singleton] at hx
        omega
    | succ k => simp at hak
  have hc := compare_score true [List.replicate 65536 (0 : ℝ)] [[0]] [[0]] rfl h
  rw [if_pos rfl] at hc
  exact ⟨rfl, hc⟩

/-- A mapM over Except whose every step succeeds returns the list of results. -/
theorem mapM_ok {α β : Type} (f : α → Except QErr β) (g : α → β) :
    ∀ (l : List α), (∀ x ∈ l, f x = Except.ok (g x)) →
      l.mapM f = Except.ok (l.map g) := by
  intro l
  induction l with
  | nil => intro _; rfl
  | cons hd tl ih =>
    intro h
    rw [List.mapM_cons, h hd (List.mem_cons_self _ _), ih (fun x hx =>
      h x (List.mem_cons_of_mem _ hx))]
    rfl

/-- The fold of the linear scan keeps its best index among the seen
candidates (or the initial index). -/
theorem foldl_scanStep_fst (dd : ℕ → ℝ) :
    ∀ (l : List ℕ) (s : ℕ × Option ℝ),
      (l.foldl (scanStep dd) s).1 = s.1 ∨ (l.foldl (scanStep dd) s).1 ∈ l := by
  intro l
  induction l with
  | nil => intro s; left; rfl
  | cons hd tl ih =>
    intro s
    rw [List.foldl_cons]
    rcases ih (scanStep dd s hd) with h | h
    · rw [h]
      rw [scanStep]
      rcases hs : s.2 with - | bd
      · right; exact List.mem_cons_self _ _
      · dsimp only
        split
        · right; exact List.mem_cons_self _ _
        · left; rfl
    · right; exact List.mem_cons_of_mem _ h

/-- The scan index is always an admissible byte. -/
theorem scanIndex_lt (dd : ℕ → ℝ) : scanIndex dd < 256 := by
  rw [scanIndex]
  rcases foldl_scanStep_fst dd (List.range 256) (0, none) with h | h
  · rw [h]; decide
  · exact List.mem_range.mp h

/-- C3: encode on a trained quantizer returns a code of length exactly D/n
whose every byte lies in [0, 255]. -/
theorem encode_length_bytes (n D : ℕ) (centers : List (List (List ℝ))) (v : List ℝ)
    (hv : v.length = D) (hc : D / n ≤ centers.length) :
    ∃ code, projectE n centers v = Except.ok code ∧ code.length = D / n ∧
      ∀ x ∈ code, x < 256 := by
  subst hv
  refine ⟨(List.range (v.length / n)).map
    (fun i => getIndex ((v.drop (i * n)).take n) (centers.getD i [])), ?_, ?_, ?_⟩
  · rw [projectE]
    refine mapM_ok _ _ _ ?_
    intro i hi
    have hilt : i < centers.length := lt_of_lt_of_le (List.mem_range.mp hi) hc
    have : centers.get? i = some (centers.getD i []) := by
      simp [List.get?_eq_getElem?, List.getD_eq_getElem?_getD, List.getElem?_eq_getElem hilt]
    rw [this]
  · simp
  · intro x hx
    simp only [List.mem_map] at hx
    obtain ⟨i, -, rfl⟩ := hx
    exact scanIndex_lt _

/-- Witness for C3 on a one-subspace quantizer. -/
theorem encode_length_bytes_witness :
    ([(0 : ℝ), 0] : List ℝ).length = 2 ∧ 2 / 2 ≤ ([[[0, 0]]] : List (List (List ℝ))).length ∧
    ∃ code, projectE 2 [[[0, 0]]] [(0 : ℝ), 0] = Except.ok code ∧ code.length = 2 / 2 ∧
      ∀ x ∈ code, x < 256 :=
  ⟨rfl, by decide, encode_length_bytes 2 2 [[[0, 0]]] [0, 0] rfl (by decide)⟩

/-- The Euclidean norm is never negative. -/
theorem normL2_nonneg (a b : List ℝ) : 0 ≤ normL2 a b :=
  Real.sqrt_nonneg _

/-- Euclidean distance from the origin of a one-dimensional vector. -/
theorem normL2_single (x : ℝ) : normL2 [0] [x] = |x| := by
  have h : (([(0 : ℝ)].zip [x]).map (fun p => (p.1 - p.2) ^ 2)).sum = x ^ 2 := by
    simp [List.zip]
  rw [normL2, h, Real.sqrt_sq_eq_abs]

/-- Starting the scan from a live best, the final best never worsens and is at
most every candidate seen. -/
theorem foldl_scanStep_min (dd : ℕ → ℝ) :
    ∀ (l : List ℕ) (i : ℕ) (bd : ℝ), bd = dd i →
      ∃ i2 bd2, l.foldl (scanStep dd) (i, some bd) = (i2, some bd2) ∧
        bd2 = dd i2 ∧ bd2 ≤ bd ∧ ∀ j ∈ l, bd2 ≤ dd j := by
  intro l
  induction l with
  | nil => intro i bd hbd; exact ⟨i, bd, rfl, hbd, le_refl _, by simp⟩
  | cons hd tl ih =>
    intro i bd hbd
    rw [List.foldl_cons]
    by_cases hlt : dd hd < bd
    · rw [show scanStep dd (i, some bd) hd = (hd, some (dd hd)) by
        rw [scanStep]; simp [hlt]]
      obtain ⟨i2, bd2, heq, h1, h2, h3⟩ := ih hd (dd hd) rfl
      refine ⟨i2, bd2, heq, h1, le_trans h2 (le_of_lt hlt), ?_⟩
      intro j hj
      rcases List.mem_cons.mp hj with rfl | hj2
      · exact h2
      · exact h3 j hj2
    · rw [show scanStep dd (i, some bd) hd = (i, some bd) by
        rw [scanStep]; simp [hlt]]
      obtain ⟨i2, bd2, heq, h1, h2, h3⟩ := ih i bd hbd
      refine ⟨i2, bd2, heq, h1, h2, ?_⟩
      intro j hj
      rcases List.mem_cons.mp hj with rfl | hj2
      · exact le_trans h2 (not_lt.mp hlt)
      · exact h3 j hj2

/-- The scan result minimizes its objective over all 256 candidates. -/
theorem scanIndex_min (dd : ℕ → ℝ) (j : ℕ) (hj : j < 256) : dd (scanIndex dd) ≤ dd j := by
  rw [scanIndex, show (256 : ℕ) = 255 + 1 from rfl, List.range_succ_eq_map, List.foldl_cons,
    show scanStep dd (0, none) 0 = (0, some (dd 0)) from rfl]
  obtain ⟨i2, bd2, heq, h1, h2, h3⟩ :=
    foldl_scanStep_min dd ((List.range 255).map Nat.succ) 0 (dd 0) rfl
  rw [heq]
  show dd i2 ≤ dd j
  rw [← h1]
  cases j with
  | zero => exact h2
  | succ k =>
    have hk : k < 255 := by omega
    have hmem : (k + 1) ∈ (List.range 255).map Nat.succ :=
      List.mem_map.mpr ⟨k, List.mem_range.mpr hk, rfl⟩
    exact h3 _ hmem

/-- C4 (amended): the byte emitted by encode for a subspace is the index of an
exact nearest center among the 256 codebook rows under the Euclidean L2 norm
hardcoded in getIndex, found by linear scan with no approximation (though not
necessarily under the configured base distance metric). -/
theorem getIndex_nearest_L2 (m : List ℝ) (center : List (List ℝ)) (j : ℕ) (hj : j < 256) :
    getIndex m center < 256 ∧
      normL2 m (center.getD (getIndex m center) []) ≤ normL2 m (center.getD j []) := by
  constructor
  · exact scanIndex_lt (fun i => normL2 m (center.getD i []))
  · exact scanIndex_min (fun i => normL2 m (center.getD i [])) j hj

/-- Witness for the amended C4. -/
theorem getIndex_nearest_L2_witness :
    0 < 256 ∧ getIndex [] [] < 256 ∧
      normL2 [] (([] : List (List ℝ)).getD (getIndex [] []) []) ≤
        normL2 [] (([] : List (List ℝ)).getD 0 []) :=
  ⟨by decide, getIndex_nearest_L2 [] [] 0 (by decide)⟩

/-- A configured base distance metric other than L2 (the configuration surface
accepts any br::Distance): the negated Euclidean norm. -/
noncomputable def exDist (a b : List ℝ) : ℝ := -(normL2 a b)

/-- A concrete 256-row codebook: row j is the one-dimensional vector [j]. -/
noncomputable def exCenters : List (List ℝ) :=
  (List.range 256).map (fun (j : ℕ) => [(j : ℝ)])

/-- Reading row j of the concrete codebook. -/
theorem exCenters_getD {j : ℕ} (hj : j < 256) : exCenters.getD j [] = [(j : ℝ)] := by
  rw [exCenters, List.getD_eq_getElem?_getD, List.getElem?_map, List.getElem?_range hj]
  rfl

/-- Once the best distance is one no candidate beats, the scan state is
stable. -/
theorem foldl_scanStep_const (dd : ℕ → ℝ) :
    ∀ (l : List ℕ) (i : ℕ) (bd : ℝ), (∀ j ∈ l, ¬ dd j < bd) →
      l.foldl (scanStep dd) (i, some bd) = (i, some bd) := by
  intro l
  induction l with
  | nil => intro i bd _; rfl
  | cons hd tl ih =>
    intro i bd h
    rw [List.foldl_cons, show scanStep dd (i, some bd) hd = (i, some bd) by
      rw [scanStep]; simp [h hd (List.mem_cons_self _ _)]]
    exact ih i bd (fun j hj => h j (List.mem_cons_of_mem _ hj))

/-- On input [0] against the concrete codebook, the source scan (L2) stays at
index 0, whose distance is 0. -/
theorem getIndex_ex_eval : getIndex [(0 : ℝ)] exCenters = 0 := by
  rw [getIndex, scanIndex, show (256 : ℕ) = 255 + 1 from rfl, List.range_succ_eq_map,
    List.foldl_cons]
  have h0 : normL2 [(0 : ℝ)] (exCenters.getD 0 []) = 0 := by
    rw [exCenters_getD (by decide), Nat.cast_zero, normL2_single]
    simp
  rw [show scanStep (fun j => normL2 [(0 : ℝ)] (exCenters.getD j [])) (0, none) 0 =
    (0, some (normL2 [(0 : ℝ)] (exCenters.getD 0 []))) from rfl]
  rw [h0, foldl_scanStep_const _ _ 0 0 (fun j _ => not_lt.mpr (normL2_nonneg _ _))]

/-- When the objective strictly decreases along 0..255, the scan walks to the
last index. -/
theorem foldl_scanStep_desc (dd : ℕ → ℝ) (hd : ∀ k, k + 1 ≤ 255 → dd (k + 1) < dd k) :
    ∀ mm, mm ≤ 255 →
      (List.range (mm + 1)).foldl (scanStep dd) (0, none) = (mm, some (dd mm)) := by
  intro mm
  induction mm with
  | zero => intro _; rfl
  | succ k ih =>
    intro hk
    rw [List.range_succ, List.foldl_append, ih (by omega), List.foldl_cons, List.foldl_nil]
    rw [scanStep]
    simp [hd k hk]

/-- On input [0] the spec's scan under the configured metric exDist walks to
index 255. -/
theorem specNearest_ex_eval : specNearestIndex exDist [(0 : ℝ)] exCenters = 255 := by
  rw [specNearestIndex, scanIndex]
  have hdd : ∀ k, k ≤ 255 → exDist [(0 : ℝ)] (exCenters.getD k []) = -(k : ℝ) := by
    intro k hk
    rw [exCenters_getD (by omega), exDist, normL2_single, abs_of_nonneg (Nat.cast_nonneg k)]
  have hdesc : ∀ k, k + 1 ≤ 255 →
      (fun j => exDist [(0 : ℝ)] (exCenters.getD j [])) (k + 1) <
        (fun j => exDist [(0 : ℝ)] (exCenters.getD j [])) k := by
    intro k hk
    dsimp only
    rw [hdd (k + 1) hk, hdd k (by omega)]
    push_cast
    linarith
  rw [show (256 : ℕ) = 255 + 1 from rfl, foldl_scanStep_desc _ hdesc 255 (le_refl _)]

/-- C4 counterexample: with a configured base metric other than L2, the byte
emitted by encode (0) is not the index of the nearest center under that
metric — the scan the spec describes picks 255, whose configured-metric
distance to the input is strictly smaller than the emitted center's. -/
theorem encode_metric_cex :
    projectE 1 [exCenters] [(0 : ℝ)] = Except.ok [getIndex [(0 : ℝ)] exCenters] ∧
    getIndex [(0 : ℝ)] exCenters = 0 ∧
    specNearestIndex exDist [(0 : ℝ)] exCenters = 255 ∧
    exDist [(0 : ℝ)] (exCenters.getD 255 []) <
      exDist [(0 : ℝ)] (exCenters.getD (getIndex [(0 : ℝ)] exCenters) []) := by
  refine ⟨?_, getIndex_ex_eval, specNearest_ex_eval, ?_⟩
  · rfl
  · rw [getIndex_ex_eval, exCenters_getD (by decide), exCenters_getD (by decide),
      exDist, exDist, Nat.cast_zero, normL2_single, normL2_single]
    have h255 : |((255 : ℕ) : ℝ)| = 255 := by
      rw [abs_of_nonneg (Nat.cast_nonneg _)]
      norm_num
    rw [h255]
    simp

/-- C9 (amended): encode on an untrained quantizer (empty centers list, as
left by the constructor) performs an out-of-bounds container access, and
compare against the constructor's fresh empty registry slot reads through the
empty table: both are undefined behaviour, not a reported fatal diagnostic. -/
theorem untrained_access_ub (n : ℕ) (v : List ℝ) (hn : 0 < n) (hv : n ≤ v.length) :
    projectE n [] v = Except.error QErr.oob ∧
    ∀ (bay : Bool) (x : ℕ) (xs bs : List ℕ) (ar br : List (List ℕ)),
      compareE bay [[]] ((x :: xs) :: ar) (bs :: br) = Except.error QErr.oob := by
  constructor
  · rw [projectE]
    have h1 : 1 ≤ v.length / n := (Nat.one_le_div_iff hn).mpr hv
    obtain ⟨m, hm⟩ : ∃ m, v.length / n = m + 1 := ⟨v.length / n - 1, by omega⟩
    rw [hm, List.range_succ_eq_map, List.mapM_cons]
    rfl
  · intro bay x xs bs ar br
    cases bs with
    | nil => rfl
    | cons b bs2 => rfl

/-- Witness for the amended C9. -/
theorem untrained_access_ub_witness :
    0 < 2 ∧ 2 ≤ ([(0 : ℝ), 0] : List ℝ).length ∧
    (projectE 2 [] [(0 : ℝ), 0] = Except.error QErr.oob ∧
      ∀ (bay : Bool) (x : ℕ) (xs bs : List ℕ) (ar br : List (List ℕ)),
        compareE bay [[]] ((x :: xs) :: ar) (bs :: br) = Except.error QErr.oob) :=
  ⟨by decide, by simp, untrained_access_ub 2 [0, 0] (by decide) (by simp)⟩

/-- C9 counterexample: encode on a freshly constructed, untrained quantizer at
a concrete input yields the undefined-behaviour marker and in particular not a
fatal diagnostic for any message. -/
theorem untrained_encode_cex :
    projectE 2 [] [(0 : ℝ), 0] = Except.error QErr.oob ∧
    ∀ msg, projectE 2 [] [(0 : ℝ), 0] ≠ Except.error (QErr.fatal msg) := by
  have h : projectE 2 [] [(0 : ℝ), 0] = Except.error QErr.oob := rfl
  refine ⟨h, ?_⟩
  intro msg hmsg
  rw [h] at hmsg
  simp at hmsg

/-- Concrete clustering oracle for the single-class scenario (its value never
matters for the populations). -/
def exKm : ℕ → List (List ℝ) := fun _ => []

/-- Concrete per-sample cluster assignment for three samples. -/
def exKmIdx : ℕ → List ℕ := fun _ => [0, 1, 2]

/-- Concrete base metric for the single-class scenario. -/
noncomputable def exDist0 : List ℝ → List ℝ → ℝ := fun _ _ => 0

/-- C6: contrary to the spec, the code does not fail fatally when a
calibration population is empty.  With a single-class training set (three
samples, all labelled 0) the impostor score population is empty, yet training
with calibration enabled returns successfully (for no message does it produce
a fatal diagnostic), proceeding into the density-ratio computation with an
empty impostor population. -/
theorem calibration_single_class_no_fatal :
    (collectScores (buildLUT exDist0 (exKm 0)) (exKmIdx 0) [0, 0, 0]).2 = [] ∧
    trainE 2 true exKm exKmIdx exDist0 [0, 0, 0] 2 =
      Except.ok ((List.range 1).map exKm,
        (List.range 1).map (fun i => subTrain true exDist0 (exKm i) (exKmIdx i) [0, 0, 0])) ∧
    ∀ msg, trainE 2 true exKm exKmIdx exDist0 [0, 0, 0] 2 ≠
      Except.error (QErr.fatal msg) := by
  have h2 : trainE 2 true exKm exKmIdx exDist0 [0, 0, 0] 2 =
      Except.ok ((List.range 1).map exKm,
        (List.range 1).map (fun i => subTrain true exDist0 (exKm i) (exKmIdx i) [0, 0, 0])) :=
    rfl
  refine ⟨rfl, h2, ?_⟩
  intro msg hmsg
  rw [h2] at hmsg
  simp at hmsg

end PQ

